import Mathlib

/-!
Verification of libnoon/compress (src/ulcompress.c and src/compress.c).

The program converts a file to an arbitrary-precision natural number
(function `get`), adds or subtracts a shift (function `main`), and converts
the number back to a file (function `put`).  Both C sources implement the
identical algorithm on top of GMP.

The embedding below translates the GMP operations on non-negative values
into operations on `Nat` (and `Int` where the C code compares possibly
negative `mpz_t` values), and the file contents into `List Nat` with each
byte below 256.
-/

/-! ### Bit length, the model of mpz_sizeinbase (m, 2)

`mpz_sizeinbase (m, 2)` returns the number of binary digits of `m` (for
`m ≥ 1`, which is the only way the sources use it: the argument is always
`255 * n + 1`).  We model it by a fuel-based structural recursion so that
the kernel can evaluate it on concrete inputs, and prove it equal to
`Nat.size`. -/

def sizebAux : Nat → Nat → Nat
  | 0, _ => 0
  | fuel + 1, m => if m = 0 then 0 else sizebAux fuel (m / 2) + 1

/-- Model of `mpz_sizeinbase (m, 2)`: the number of binary digits of `m`
(valid for `m ≥ 1`; GMP would return 1 on `m = 0`, a case the sources never
reach since their argument is always `255 * n + 1 ≥ 1`). -/
def sizeinbase2 (m : Nat) : Nat := sizebAux m m

lemma size_div_two_succ {m : Nat} (h : m ≠ 0) : Nat.size m = Nat.size (m / 2) + 1 := by
  apply le_antisymm
  · rw [Nat.size_le, pow_succ]
    have h1 := Nat.lt_size_self (m / 2)
    omega
  · rcases Nat.eq_zero_or_pos (m / 2) with h2 | h2
    · have h3 : (0 : Nat) < Nat.size m := Nat.size_pos.mpr (Nat.pos_of_ne_zero h)
      rw [h2, Nat.size_zero]
      omega
    · have hs : 0 < Nat.size (m / 2) := Nat.size_pos.mpr h2
      have h3 : 2 ^ (Nat.size (m / 2) - 1) ≤ m / 2 :=
        Nat.lt_size.mp (by omega)
      have h4 : 2 ^ (Nat.size (m / 2) - 1 + 1) ≤ m := by
        rw [pow_succ]; omega
      have h5 : Nat.size (m / 2) - 1 + 1 = Nat.size (m / 2) := by omega
      rw [h5] at h4
      exact Nat.lt_size.mpr h4

lemma sizebAux_eq_size (fuel m : Nat) (h : m ≤ fuel) : sizebAux fuel m = Nat.size m := by
  induction fuel generalizing m with
  | zero =>
    have hm : m = 0 := by omega
    simp [sizebAux, hm]
  | succ fuel ih =>
    by_cases hm : m = 0
    · simp [sizebAux, hm]
    · have hf : m / 2 ≤ fuel := by omega
      simp only [sizebAux, if_neg hm]
      rw [ih _ hf, ← size_div_two_succ hm]

lemma sizeinbase2_eq_size (m : Nat) : sizeinbase2 m = Nat.size m :=
  sizebAux_eq_size m m le_rfl

/-! ### SizeIntervalMath -/

/-- First integer of size category `N`, as computed in both `get` and `put`:
`mpz_setbit (n, 8*N)` sets `n = 2 ^ (8*N)`, then `mpz_sub_ui` and
`mpz_fdiv_q` by the constant 255 give `(2 ^ (8*N) - 1) / 255`. -/
def categoryStart (N : Nat) : Nat := (2 ^ (8 * N) - 1) / 255

/-- Size category of a value, as computed in `put`:
`filesize = (mpz_sizeinbase (255 * n + 1, 2) - 1) / 8`. -/
def categoryOf (v : Nat) : Nat := (sizeinbase2 (255 * v + 1) - 1) / 8

/-! ### FileCodec -/

/-- Value of a byte list read as a base-256 number, least significant byte
first: the model of `mpz_import (m, filesize, -1, 1, 0, 0, contents)`. -/
def leVal : List Nat → Nat
  | [] => 0
  | b :: bs => b + 256 * leVal bs

/-- The `N` little-endian base-256 digits of `m`: the model of the
`memset (contents, 0, filesize)` followed by
`mpz_export (contents, &filesize2, -1, 1, 0, 0, m)` in `put` (the export
writes the digits of `m` and the remaining high bytes stay zero). -/
def leBytes : Nat → Nat → List Nat
  | _, 0 => []
  | m, N + 1 => m % 256 :: leBytes (m / 256) N

/-- File-to-number conversion performed by `get`: the category start for the
file length plus the contents read as a little-endian base-256 number. -/
def encodeBytes (bs : List Nat) : Nat := categoryStart bs.length + leVal bs

/-- Number-to-file conversion performed by `put`: find the size category,
subtract its start, and write the offset as that many little-endian
base-256 digits. -/
def decodeBytes (v : Nat) : List Nat :=
  leBytes (v - categoryStart (categoryOf v)) (categoryOf v)

/-! ### CompressionEngine (the guard checks and subtraction in main) -/

inductive CompressError where
  /-- `fail ("Cannot compress a zero-length file.\n")` -/
  | emptyFileOverCompress : CompressError
  /-- `fail ("Cannot compress that much.\n" ...)`; the payload is the value
  `n` printed by the hint as the feasible number of compressions. -/
  | insufficientValue : Int → CompressError
deriving DecidableEq

/-- The shift application in `main`: the two guard checks
(`mpz_cmp_si (n, 0) == 0 && mpz_cmp_si (compress, 0) > 0`, then
`mpz_cmp (n, compress) < 0`) followed by `mpz_sub (n, n, compress)`. -/
def applyShift (n compress : Int) : Except CompressError Int :=
  if n = 0 ∧ 0 < compress then .error .emptyFileOverCompress
  else if n < compress then .error (.insufficientValue n)
  else .ok (n - compress)

/-! ### End-to-end run of main, tracking the target file's content -/

inductive RunOutcome where
  /-- The process exits 0; the payload is the final content of the file. -/
  | success : List Nat → RunOutcome
  /-- `fail` was called; the payload is the content the file is left with. -/
  | failure : List Nat → RunOutcome
deriving DecidableEq

/-- End-to-end effect of `main` on the target file: `get` reads the file
(`readOk` is whether fopen/fseek/fread succeed; a failure there happens
before any write), then the two guards run on the in-memory number, then
`put` opens the file with `fopen (filename, "w")` (`writeOpenOk`; on
success this truncates the file at once) and calls
`fwrite (contents, 1, filesize, file)`, which transfers `writeCount` bytes
(`writeCount < filesize` makes the `!= filesize` check call `FAILFILE`,
leaving only the transferred prefix in the file). -/
def mainRun (orig : List Nat) (k : Int) (readOk writeOpenOk : Bool) (writeCount : Nat) :
    RunOutcome :=
  if readOk = false then .failure orig
  else if (encodeBytes orig : Int) = 0 ∧ 0 < k then .failure orig
  else if (encodeBytes orig : Int) < k then .failure orig
  else if writeOpenOk = false then .failure orig
  else if (decodeBytes ((encodeBytes orig : Int) - k).toNat).length ≤ writeCount then
    .success (decodeBytes ((encodeBytes orig : Int) - k).toNat)
  else .failure ((decodeBytes ((encodeBytes orig : Int) - k).toNat).take writeCount)

/-! ### CLI shift accumulation (the getopt switch in main)

The integer operand of `-C` and `-D` is parsed by the external call
`mpz_set_str (arg, optarg, 0)`.  `mpzSetStr0` models GMP's documented
base-0 behaviour: white space is ignored, an optional leading minus sign,
then C-style base detection (`0x`/`0X` hexadecimal, `0b`/`0B` binary, a
remaining leading `0` octal, decimal otherwise), and the result is `none`
exactly when GMP would return nonzero. -/

def digitValue (c : Char) : Option Nat :=
  if '0' ≤ c ∧ c ≤ '9' then some (c.toNat - '0'.toNat)
  else if 'a' ≤ c ∧ c ≤ 'z' then some (c.toNat - 'a'.toNat + 10)
  else if 'A' ≤ c ∧ c ≤ 'Z' then some (c.toNat - 'A'.toNat + 10)
  else none

def parseDigitsAux (base : Nat) : Nat → List Char → Option Nat
  | acc, [] => some acc
  | acc, c :: cs =>
    match digitValue c with
    | some d => if d < base then parseDigitsAux base (acc * base + d) cs else none
    | none => none

def parseDigits (base : Nat) (cs : List Char) : Option Nat :=
  if cs.isEmpty then none else parseDigitsAux base 0 cs

def parseAfterSign : List Char → Option Nat
  | '0' :: 'x' :: ds => parseDigits 16 ds
  | '0' :: 'X' :: ds => parseDigits 16 ds
  | '0' :: 'b' :: ds => parseDigits 2 ds
  | '0' :: 'B' :: ds => parseDigits 2 ds
  | '0' :: ds => if ds.isEmpty then some 0 else parseDigits 8 ds
  | ds => parseDigits 10 ds

/-- Model of the external GMP call `mpz_set_str (arg, optarg, 0)`, from
GMP's documented semantics for base 0 (C-style base detection). -/
def mpzSetStr0 (s : String) : Option Int :=
  match s.data.filter (fun c => !c.isWhitespace) with
  | '-' :: rest => (parseAfterSign rest).map (fun n => -(n : Int))
  | rest => (parseAfterSign rest).map (fun n => (n : Int))

/-- The shift-relevant cases of the getopt switch in `main`. -/
inductive CliFlag where
  | c : CliFlag
  | d : CliFlag
  | Copt : String → CliFlag
  | Dopt : String → CliFlag

inductive ArgError where
  /-- `fail ("Argument is not an integer.\n")` -/
  | notAnInteger : ArgError
deriving DecidableEq

/-- One iteration of the getopt loop in `main`, updating the cumulative
shift: `-c` adds 1, `-d` subtracts 1, `-C`/`-D` parse their operand with
`mpz_set_str (arg, optarg, 0)` and add/subtract it, failing fatally when
the parse reports an error. -/
def shiftStep (compress : Int) : CliFlag → Except ArgError Int
  | .c => .ok (compress + 1)
  | .d => .ok (compress - 1)
  | .Copt s =>
    match mpzSetStr0 s with
    | some a => .ok (compress + a)
    | none => .error .notAnInteger
  | .Dopt s =>
    match mpzSetStr0 s with
    | some a => .ok (compress - a)
    | none => .error .notAnInteger

/-! ### Arithmetic facts about the category boundaries -/

lemma pow_8mul (N : Nat) : 2 ^ (8 * N) = 256 ^ N := by
  rw [pow_mul]
  norm_num

lemma one_le_pow256 (N : Nat) : 1 ≤ 256 ^ N := Nat.one_le_pow _ _ (by norm_num)

lemma dvd_255_pow (N : Nat) : 255 ∣ 256 ^ N - 1 := by
  have h : (1 : Nat) ≡ 256 ^ N [MOD 255] := by
    have h2 := Nat.ModEq.pow N (show (256 : Nat) ≡ 1 [MOD 255] by decide)
    simpa using h2.symm
  exact (Nat.modEq_iff_dvd' (one_le_pow256 N)).mp h

lemma catStart_mul (N : Nat) : 255 * categoryStart N = 256 ^ N - 1 := by
  unfold categoryStart
  rw [pow_8mul]
  exact Nat.mul_div_cancel' (dvd_255_pow N)

lemma catStart_succ (N : Nat) : categoryStart (N + 1) = categoryStart N + 256 ^ N := by
  have h1 := catStart_mul N
  have h2 := catStart_mul (N + 1)
  have h3 : (256 : Nat) ^ (N + 1) = 256 * 256 ^ N := by rw [pow_succ, mul_comm]
  have h4 := one_le_pow256 N
  omega

lemma catStart_le_iff {N v : Nat} : categoryStart N ≤ v ↔ 256 ^ N ≤ 255 * v + 1 := by
  have h1 := catStart_mul N
  have h2 := one_le_pow256 N
  omega

lemma categoryOf_eq_of_bounds {N v : Nat} (h1 : categoryStart N ≤ v)
    (h2 : v < categoryStart (N + 1)) : categoryOf v = N := by
  have hlo : 2 ^ (8 * N) ≤ 255 * v + 1 := by
    rw [pow_8mul]; exact catStart_le_iff.mp h1
  have hhi : 255 * v + 1 < 2 ^ (8 * N + 8) := by
    rw [show 8 * N + 8 = 8 * (N + 1) by ring, pow_8mul]
    have h3 := catStart_le_iff (N := N + 1) (v := v)
    omega
  unfold categoryOf
  rw [sizeinbase2_eq_size]
  have hs1 : 8 * N < Nat.size (255 * v + 1) := Nat.lt_size.mpr hlo
  have hs2 : Nat.size (255 * v + 1) ≤ 8 * N + 8 := Nat.size_le.mpr hhi
  omega

lemma categoryOf_bounds (v : Nat) :
    categoryStart (categoryOf v) ≤ v ∧ v < categoryStart (categoryOf v + 1) := by
  have hm : 0 < 255 * v + 1 := by omega
  have hs : 1 ≤ Nat.size (255 * v + 1) := Nat.size_pos.mpr hm
  set s := Nat.size (255 * v + 1) with hsdef
  have hlo : 2 ^ (s - 1) ≤ 255 * v + 1 := Nat.lt_size.mp (by omega)
  have hhi : 255 * v + 1 < 2 ^ s := Nat.lt_size_self _
  have hcat : categoryOf v = (s - 1) / 8 := by
    unfold categoryOf
    rw [sizeinbase2_eq_size, ← hsdef]
  constructor
  · rw [hcat]
    apply catStart_le_iff.mpr
    calc 256 ^ ((s - 1) / 8) = 2 ^ (8 * ((s - 1) / 8)) := (pow_8mul _).symm
    _ ≤ 2 ^ (s - 1) := Nat.pow_le_pow_right (by norm_num) (by omega)
    _ ≤ 255 * v + 1 := hlo
  · rw [hcat]
    by_contra hcon
    push_neg at hcon
    have h1 := catStart_le_iff.mp hcon
    have h2 : 2 ^ (8 * ((s - 1) / 8 + 1)) ≤ 255 * v + 1 := by
      rw [pow_8mul]; exact h1
    have h3 : 2 ^ s ≤ 2 ^ (8 * ((s - 1) / 8 + 1)) :=
      Nat.pow_le_pow_right (by norm_num) (by omega)
    omega

lemma categoryOf_mono {v w : Nat} (h : v ≤ w) : categoryOf v ≤ categoryOf w := by
  unfold categoryOf
  rw [sizeinbase2_eq_size, sizeinbase2_eq_size]
  have h1 := Nat.size_le_size (show 255 * v + 1 ≤ 255 * w + 1 by omega)
  omega

/-! ### Facts about the little-endian byte codec -/

lemma leVal_lt {bs : List Nat} (h : ∀ b ∈ bs, b < 256) : leVal bs < 256 ^ bs.length := by
  induction bs with
  | nil => simp [leVal]
  | cons b bs ih =>
    have hb : b < 256 := h b (List.mem_cons_self b bs)
    have ht := ih (fun x hx => h x (List.mem_cons_of_mem b hx))
    have hp : (256 : Nat) ^ (b :: bs).length = 256 * 256 ^ bs.length := by
      rw [List.length_cons, pow_succ, mul_comm]
    rw [show leVal (b :: bs) = b + 256 * leVal bs from rfl, hp]
    omega

lemma length_leBytes (m N : Nat) : (leBytes m N).length = N := by
  induction N generalizing m with
  | zero => rfl
  | succ N ih => simp [leBytes, ih]

lemma leVal_leBytes {N m : Nat} (h : m < 256 ^ N) : leVal (leBytes m N) = m := by
  induction N generalizing m with
  | zero =>
    have hm : m = 0 := by simpa using h
    simp [leBytes, leVal, hm]
  | succ N ih =>
    have hpow : (256 : Nat) ^ (N + 1) = 256 ^ N * 256 := pow_succ 256 N
    have hdiv : m / 256 < 256 ^ N := by omega
    rw [show leBytes m (N + 1) = m % 256 :: leBytes (m / 256) N from rfl,
      show leVal (m % 256 :: leBytes (m / 256) N) =
        m % 256 + 256 * leVal (leBytes (m / 256) N) from rfl,
      ih hdiv]
    omega

lemma leBytes_leVal {bs : List Nat} (h : ∀ b ∈ bs, b < 256) :
    leBytes (leVal bs) bs.length = bs := by
  induction bs with
  | nil => rfl
  | cons b bs ih =>
    have hb : b < 256 := h b (List.mem_cons_self b bs)
    have ih2 := ih (fun x hx => h x (List.mem_cons_of_mem b hx))
    rw [List.length_cons,
      show leVal (b :: bs) = b + 256 * leVal bs from rfl,
      show leBytes (b + 256 * leVal bs) (bs.length + 1) =
        (b + 256 * leVal bs) % 256 :: leBytes ((b + 256 * leVal bs) / 256) bs.length from rfl]
    have h1 : (b + 256 * leVal bs) % 256 = b := by omega
    have h2 : (b + 256 * leVal bs) / 256 = leVal bs := by omega
    rw [h1, h2, ih2]

lemma leVal_eq_sum (bs : List Nat) :
    leVal bs = ∑ i ∈ Finset.range bs.length, bs.getD i 0 * 256 ^ i := by
  induction bs with
  | nil => simp [leVal]
  | cons b bs ih =>
    rw [List.length_cons, Finset.sum_range_succ']
    simp only [List.getD_cons_succ, List.getD_cons_zero, pow_zero, mul_one]
    rw [show leVal (b :: bs) = b + 256 * leVal bs from rfl, ih]
    have h : ∀ i ∈ Finset.range bs.length,
        bs.getD i 0 * 256 ^ (i + 1) = bs.getD i 0 * 256 ^ i * 256 := by
      intro i _; ring
    rw [Finset.sum_congr rfl h, ← Finset.sum_mul]
    ring

/-! ### Claims -/

/-- C1: for every byte sequence B (each byte below 256, including the empty
sequence), decoding the encoding of B yields B exactly:
`decode (encode B) = B`, where encode is `get`'s file-to-integer conversion
and decode is `put`'s integer-to-file conversion. -/
theorem C1_decode_encode_roundtrip (bs : List Nat) (h : ∀ b ∈ bs, b < 256) :
    decodeBytes (encodeBytes bs) = bs := by
  have hlt := leVal_lt h
  have h1 : categoryStart bs.length ≤ encodeBytes bs := by
    unfold encodeBytes; omega
  have h2 : encodeBytes bs < categoryStart (bs.length + 1) := by
    rw [catStart_succ]
    unfold encodeBytes
    omega
  have hcat : categoryOf (encodeBytes bs) = bs.length := categoryOf_eq_of_bounds h1 h2
  unfold decodeBytes
  rw [hcat]
  have h3 : encodeBytes bs - categoryStart bs.length = leVal bs := by
    unfold encodeBytes; omega
  rw [h3, leBytes_leVal h]

/-- Witness for C1 at the concrete inputs `[]` and `[7, 255]`. -/
theorem C1_witness :
    decodeBytes (encodeBytes []) = [] ∧ decodeBytes (encodeBytes [7, 255]) = [7, 255] :=
  ⟨C1_decode_encode_roundtrip [] (by decide), C1_decode_encode_roundtrip [7, 255] (by decide)⟩

/-- C2: for every non-negative integer V, encoding the decoding of V yields
V exactly: `encode (decode V) = V`. -/
theorem C2_encode_decode_roundtrip (v : Nat) : encodeBytes (decodeBytes v) = v := by
  obtain ⟨h1, h2⟩ := categoryOf_bounds v
  have hoff : v - categoryStart (categoryOf v) < 256 ^ categoryOf v := by
    rw [catStart_succ] at h2; omega
  unfold encodeBytes decodeBytes
  rw [length_leBytes, leVal_leBytes hoff]
  omega

/-- C3: for every non-negative value V and signed shift k, `applyShift`
follows the three cases of main in order: V = 0 with k > 0 fails with
EmptyFileOverCompress; otherwise V < k fails with InsufficientValue
reporting V as the feasible count; otherwise it returns V - k, so any
negative k succeeds, including on V = 0. -/
theorem C3_applyShift_cases (v k : Int) (hv : 0 ≤ v) :
    (v = 0 → 0 < k → applyShift v k = .error .emptyFileOverCompress) ∧
    (¬ (v = 0 ∧ 0 < k) → v < k → applyShift v k = .error (.insufficientValue v)) ∧
    (¬ (v = 0 ∧ 0 < k) → ¬ v < k → applyShift v k = .ok (v - k)) ∧
    (k < 0 → applyShift v k = .ok (v - k)) := by
  refine ⟨fun h1 h2 => ?_, fun h1 h2 => ?_, fun h1 h2 => ?_, fun h1 => ?_⟩
  · simp [applyShift, h1, h2]
  · simp [applyShift, h1, h2]
  · simp [applyShift, h1, h2]
  · have h2 : ¬ (v = 0 ∧ 0 < k) := by omega
    have h3 : ¬ v < k := by omega
    simp [applyShift, h2, h3]

/-- Witness for C3, one concrete input per case. -/
theorem C3_witness :
    applyShift 0 1 = .error .emptyFileOverCompress ∧
    applyShift 2 5 = .error (.insufficientValue 2) ∧
    applyShift 5 2 = .ok (5 - 2) ∧
    applyShift 0 (-3) = .ok (0 - (-3)) :=
  ⟨(C3_applyShift_cases 0 1 (by decide)).1 rfl (by decide),
   (C3_applyShift_cases 2 5 (by decide)).2.1 (by decide) (by decide),
   (C3_applyShift_cases 5 2 (by decide)).2.2.1 (by decide) (by decide),
   (C3_applyShift_cases 0 (-3) (by decide)).2.2.2 (by decide)⟩

/-- C4: the category lookup `(bitlength (255 V + 1) - 1) / 8` is exact at
every boundary: `categoryOf (categoryStart N) = N`; for N ≥ 1,
`categoryOf (categoryStart N - 1) = N - 1`; and `categoryOf V` is the
unique N with `categoryStart N ≤ V < categoryStart (N + 1)`. -/
theorem C4_categoryOf_boundaries (N V : Nat) :
    categoryOf (categoryStart N) = N ∧
    (1 ≤ N → categoryOf (categoryStart N - 1) = N - 1) ∧
    (categoryStart N ≤ V → V < categoryStart (N + 1) → categoryOf V = N) := by
  refine ⟨?_, ?_, fun h1 h2 => categoryOf_eq_of_bounds h1 h2⟩
  · apply categoryOf_eq_of_bounds le_rfl
    rw [catStart_succ]
    have h1 := one_le_pow256 N
    omega
  · intro hN
    obtain ⟨M, rfl⟩ : ∃ M, N = M + 1 := ⟨N - 1, by omega⟩
    have hsucc := catStart_succ M
    have hone := one_le_pow256 M
    have h1 : categoryStart M ≤ categoryStart (M + 1) - 1 := by omega
    have h2 : categoryStart (M + 1) - 1 < categoryStart (M + 1) := by omega
    have h3 := categoryOf_eq_of_bounds h1 h2
    simpa using h3

/-- Witness for C4 at N = 2 (boundary 257) and V = 300. -/
theorem C4_witness :
    categoryOf (categoryStart 2) = 2 ∧
    categoryOf (categoryStart 2 - 1) = 1 ∧ categoryOf 300 = 2 :=
  ⟨(C4_categoryOf_boundaries 2 300).1,
   (C4_categoryOf_boundaries 2 300).2.1 (by decide),
   (C4_categoryOf_boundaries 2 300).2.2 (by decide) (by decide)⟩

/-- C5: the category start `(256 ^ N - 1) / 255` computed by bit-set,
subtract 1 and floor-division satisfies `categoryStart 0 = 0` and
`categoryStart (N + 1) = categoryStart N + 256 ^ N`, so the boundaries are
strictly increasing. -/
theorem C5_categoryStart_closed_form :
    categoryStart 0 = 0 ∧
    ∀ N : Nat, categoryStart (N + 1) = categoryStart N + 256 ^ N ∧
      categoryStart N < categoryStart (N + 1) := by
  refine ⟨rfl, fun N => ⟨catStart_succ N, ?_⟩⟩
  have h1 := catStart_succ N
  have h2 := one_le_pow256 N
  omega

/-- C6: encoding a byte list of length N gives `categoryStart N` plus the
little-endian base-256 value of the bytes (byte 0 the least-significant
digit); the empty file encodes to 0, `[0x00]` to 1, `[0xFF]` to 256 and
`[0x00, 0x00]` to 257. -/
theorem C6_encode_formula (bs : List Nat) :
    encodeBytes bs =
      categoryStart bs.length + ∑ i ∈ Finset.range bs.length, bs.getD i 0 * 256 ^ i ∧
    encodeBytes [] = 0 ∧ encodeBytes [0] = 1 ∧
    encodeBytes [255] = 256 ∧ encodeBytes [0, 0] = 257 := by
  refine ⟨?_, by decide, by decide, by decide, by decide⟩
  rw [← leVal_eq_sum]
  rfl

/-- C7: compression and decompression are exact inverses: whenever
`applyShift v k` succeeds with value w, `applyShift w (-k)` succeeds and
returns v. -/
theorem C7_applyShift_inverse (v k w : Int) (hv : 0 ≤ v)
    (h : applyShift v k = .ok w) : applyShift w (-k) = .ok v := by
  have hfacts : ¬ (v = 0 ∧ 0 < k) ∧ ¬ v < k ∧ w = v - k := by
    by_cases h1 : v = 0 ∧ 0 < k
    · simp [applyShift, h1] at h
    · by_cases h2 : v < k
      · simp [applyShift, h1, h2] at h
      · refine ⟨h1, h2, ?_⟩
        simpa [applyShift, h1, h2] using h.symm
  obtain ⟨h1, h2, rfl⟩ := hfacts
  have hg1 : ¬ (v - k = 0 ∧ 0 < -k) := by omega
  have hg2 : ¬ v - k < -k := by omega
  unfold applyShift
  rw [if_neg hg1, if_neg hg2, show v - k - -k = v from by ring]

/-- Witness for C7: compressing 7 by 3 gives 4, and decompressing 4 by 3
gives back 7. -/
theorem C7_witness : applyShift 4 (-3) = .ok 7 :=
  C7_applyShift_inverse 7 3 4 (by decide) (by unfold applyShift; norm_num)

/-- C8 counterexample: running on the one-byte file `[0x00]` with shift 0
and a final fwrite that transfers 0 of the 1 requested bytes ends in
`fail` (the `!= filesize` check in `put`) with the file left empty — the
original content `[0x00]` is not preserved, because `fopen (filename, "w")`
truncated the file before the write. -/
theorem C8_counterexample :
    mainRun [0] 0 true true 0 = .failure [] ∧ ([] : List Nat) ≠ [0] := by decide

/-- C8 amended: every run ends in one of exactly three states: a failure
raised before any write (read failure, either guard, or a failed open for
writing) leaves the original content untouched; a complete write succeeds
with the full transformed content; a short write fails leaving the file
holding only the prefix of the transformed content that was transferred. -/
theorem C8_amended_write_atomicity (orig : List Nat) (k : Int) (ro wo : Bool) (wc : Nat) :
    mainRun orig k ro wo wc = .failure orig ∨
    (mainRun orig k ro wo wc = .success (decodeBytes ((encodeBytes orig : Int) - k).toNat) ∧
      (decodeBytes ((encodeBytes orig : Int) - k).toNat).length ≤ wc) ∨
    (mainRun orig k ro wo wc =
        .failure ((decodeBytes ((encodeBytes orig : Int) - k).toNat).take wc) ∧
      wc < (decodeBytes ((encodeBytes orig : Int) - k).toNat).length) := by
  unfold mainRun
  by_cases h1 : ro = false
  · left; rw [if_pos h1]
  rw [if_neg h1]
  by_cases h2 : (encodeBytes orig : Int) = 0 ∧ 0 < k
  · left; rw [if_pos h2]
  rw [if_neg h2]
  by_cases h3 : (encodeBytes orig : Int) < k
  · left; rw [if_pos h3]
  rw [if_neg h3]
  by_cases h4 : wo = false
  · left; rw [if_pos h4]
  rw [if_neg h4]
  by_cases h5 : (decodeBytes ((encodeBytes orig : Int) - k).toNat).length ≤ wc
  · right; left; rw [if_pos h5]; exact ⟨rfl, h5⟩
  · right; right; rw [if_neg h5]; exact ⟨rfl, by omega⟩

/-- C9 counterexample: with V = 2 and k = 1 (so V ≥ 1 and 0 < k ≤ V),
`decode (V - k) = decode 1 = [0x00]` and `decode V = decode 2 = [0x01]`
have the same length 1: a successful compression step does not strictly
shrink the file. -/
theorem C9_counterexample :
    1 ≤ (2 : Nat) ∧ 0 < (1 : Nat) ∧ (1 : Nat) ≤ 2 ∧
    ¬ (decodeBytes (2 - 1)).length < (decodeBytes 2).length := by decide

/-- C9 amended: for every V ≥ 1 and positive shift k ≤ V, the byte length
of `decode (V - k)` is at most (not strictly smaller than) the byte length
of `decode V`: compression never grows the file, and shrinks it exactly
when the value crosses a category boundary. -/
theorem C9_amended_length_antitone (v k : Nat) (hv : 1 ≤ v) (hk : 0 < k) (hkv : k ≤ v) :
    (decodeBytes (v - k)).length ≤ (decodeBytes v).length := by
  unfold decodeBytes
  rw [length_leBytes, length_leBytes]
  exact categoryOf_mono (by omega)

/-- Witness for the amended C9 at V = 300, k = 280. -/
theorem C9_witness : (decodeBytes (300 - 280)).length ≤ (decodeBytes 300).length :=
  C9_amended_length_antitone 300 280 (by decide) (by decide) (by decide)

/-- C10: the operand of -C and -D goes through `mpz_set_str (arg, optarg, 0)`,
i.e. C-style base detection: a `0x`/`0X` prefix is hexadecimal, a plain
leading `0` is octal (so `-C 010` adds eight, not ten, to the cumulative
shift), and any string that is not a well-formed integer in this syntax is
a fatal argument error. -/
theorem C10_cli_integer_parsing (sh : Int) (s : String) :
    (mpzSetStr0 s = none → shiftStep sh (.Copt s) = .error .notAnInteger) ∧
    (mpzSetStr0 s = none → shiftStep sh (.Dopt s) = .error .notAnInteger) ∧
    shiftStep sh (.Copt "010") = .ok (sh + 8) ∧
    shiftStep sh (.Dopt "010") = .ok (sh - 8) ∧
    mpzSetStr0 "010" = some 8 ∧ mpzSetStr0 "10" = some 10 ∧
    mpzSetStr0 "0x1f" = some 31 ∧ mpzSetStr0 "0X1F" = some 31 ∧
    mpzSetStr0 "-0x10" = some (-16) ∧
    mpzSetStr0 "abc" = none ∧ mpzSetStr0 "" = none := by
  refine ⟨fun h => ?_, fun h => ?_, ?_, ?_, by decide, by decide, by decide,
    by decide, by decide, by decide, by decide⟩
  · simp [shiftStep, h]
  · simp [shiftStep, h]
  · have h8 : mpzSetStr0 "010" = some 8 := by decide
    simp [shiftStep, h8]
  · have h8 : mpzSetStr0 "010" = some 8 := by decide
    simp [shiftStep, h8]

/-- Witness for C10: a malformed operand is rejected, and `-C 010` adds 8. -/
theorem C10_witness :
    shiftStep 0 (.Copt "abc") = .error .notAnInteger ∧
    shiftStep 0 (.Copt "010") = .ok (0 + 8) :=
  ⟨(C10_cli_integer_parsing 0 "abc").1 (by decide),
   (C10_cli_integer_parsing 0 "010").2.2.1⟩
